import Mathlib

/-!
Verification of the Odoo read-only gateway (`app.py`) against its
natural-language specification.

The Python source is shallowly embedded below: each helper of `app.py`
becomes a Lean definition with the same name (leading underscores dropped),
stateful endpoint handlers become functions of an explicit remote-service
oracle, and Python exceptions become `Except` values.

Unicode character data (used by `str.lower`, `unicodedata.normalize("NFKD", ·)`,
`unicodedata.combining`) is embedded as finite tables carrying the exact
UnicodeData.txt values for every code point that occurs in this development;
all remaining code points are carried as inert characters (identity
decomposition, not combining, case-stable outside ASCII A-Z).
-/

namespace App

/-- Whitespace, as recognised by Python's `str.strip`, `str.split` and the
regex class `\s` on the ASCII range (the only whitespace occurring here). -/
def pyIsSpace (c : Char) : Bool :=
  c == ' ' || c == '\t' || c == '\n' || c == '\x0b' || c == '\x0c' || c == '\r'

/-- Python `str.lower`, restricted to the character repertoire of this
development: the ASCII range plus the precomposed Latin capitals used in the
spec's examples.  `'ᴷ'` (U+1D37, MODIFIER LETTER CAPITAL K) has no lowercase
mapping in UnicodeData.txt and is left unchanged, as Python does. -/
def lowerChar (c : Char) : Char :=
  if 'A' ≤ c && c ≤ 'Z' then Char.ofNat (c.toNat + 32)
  else if c == 'É' then 'é'
  else c

/-- Compatibility (NFKD) decomposition of a single character, per
UnicodeData.txt: `é` = U+00E9 decomposes canonically to `e` + U+0301
COMBINING ACUTE ACCENT, `É` likewise with `E`, and `ᴷ` = U+1D37 has the
compatibility decomposition `<super> 004B`, i.e. the capital `K`.
Characters outside the table decompose to themselves. -/
def nfkdChar (c : Char) : List Char :=
  if c == 'é' then ['e', '́']
  else if c == 'É' then ['E', '́']
  else if c == 'ᴷ' then ['K']
  else [c]

/-- Combining marks (`unicodedata.combining(c) != 0`), restricted to the
repertoire: the combining acute accent produced by the decompositions above. -/
def combiningChar (c : Char) : Bool :=
  c == '́'

/-- Python `str.strip`: drop whitespace from both ends. -/
def stripL (l : List Char) : List Char :=
  ((l.dropWhile pyIsSpace).reverse.dropWhile pyIsSpace).reverse

/-- Worker for `re.sub(r"\s+", " ", s)`: the flag records whether the
previous character was part of a whitespace run already replaced. -/
def collapseAux : List Char → Bool → List Char
  | [], _ => []
  | c :: rest, prevWs =>
    if pyIsSpace c then
      if prevWs then collapseAux rest true
      else ' ' :: collapseAux rest true
    else c :: collapseAux rest false

/-- `re.sub(r"\s+", " ", s)`: every maximal whitespace run becomes one space. -/
def collapseWs (l : List Char) : List Char := collapseAux l false

/-- Body of `_normalize` from `app.py`, on character lists:
strip, lowercase, NFKD-decompose, drop combining marks, collapse whitespace. -/
def normalizeL (l : List Char) : List Char :=
  collapseWs ((((stripL l).map lowerChar).flatMap nfkdChar).filter
    (fun c => !combiningChar c))

/-- `_normalize(s)` from `app.py` (lines 52-57). -/
def normalize (s : String) : String := String.mk (normalizeL s.data)

/-- `_normalize` applied to a possibly-null argument: the Python body starts
with `(s or "")`, so `None` is treated as the empty string. -/
def normalizeOpt (s : Option String) : String := normalize (s.getD "")

/-- Python `s.split(sep)` for a one-character separator `sep`: split at every
occurrence, keeping empty pieces (`"".split(" ") == [""]`). -/
def splitChar (sep : Char) : List Char → List (List Char)
  | [] => [[]]
  | c :: rest =>
    match splitChar sep rest with
    | [] => [[]]
    | g :: gs => if c == sep then [] :: g :: gs else (c :: g) :: gs

/-- Python `s.split(sep)` on strings, one-character separator. -/
def pySplit (s : String) (sep : Char) : List String :=
  (splitChar sep s.data).map String.mk

/-- One element of an Odoo search domain: either a prefix operator such as
`"|"`, or a leaf condition `[field, operator, value]`. -/
inductive DomTerm where
  | op (s : String)
  | cond (field oper value : String)
deriving DecidableEq, Repr

/-- `_token_or_domain(field, q)` from `app.py` (lines 104-120): tokenize the
normalized query, keep tokens of length at least 2, fall back to the whole
normalized query when none survive; one token gives a single leaf, N tokens
give N-1 `"|"` markers followed by the N `ilike` leaves. -/
def token_or_domain (field q : String) : List DomTerm :=
  let qn := normalize q
  let ts := (pySplit qn ' ').filter (fun t => 2 ≤ t.length)
  let tokens := if ts.isEmpty then [qn] else ts
  match tokens with
  | [t] => [DomTerm.cond field "ilike" t]
  | _ =>
    let dom := List.replicate (tokens.length - 1) (DomTerm.op "|")
    dom ++ tokens.map (fun t => DomTerm.cond field "ilike" t)

/-- The effective token list used by `_token_or_domain`: surviving tokens of
length at least 2, or the whole normalized query when none survive. -/
def effTokens (q : String) : List String :=
  let qn := normalize q
  let ts := (pySplit qn ' ').filter (fun t => 2 ≤ t.length)
  if ts.isEmpty then [qn] else ts

/-- Outcome of one `models.execute_kw` round trip (the Remote Data Service):
a value, an `xmlrpc.client.Fault`, or any other (transport) exception. -/
inductive RemoteOutcome (V : Type) where
  | ok (v : V)
  | fault (msg : String)
  | exn (msg : String)

/-- An HTTP error response, as raised via `HTTPException(status_code, detail)`. -/
structure HTTPError where
  status : Nat
  detail : String
deriving DecidableEq, Repr

/-- `ALLOWED_METHODS` from `app.py` line 37. -/
def ALLOWED_METHODS : List String := ["search_read", "read", "fields_get", "name_search"]

/-- `_odoo_call(model, method, args, kwargs)` from `app.py` (lines 39-47).
The remote service (`models.execute_kw` over the authenticated session) is
passed in as an oracle; `args`/`kwargs` are abstract payload types. -/
def odoo_call {V A K : Type} (remote : String → String → A → K → RemoteOutcome V)
    (model method : String) (args : A) (kwargs : K) : Except HTTPError V :=
  if method ∉ ALLOWED_METHODS then
    Except.error ⟨403, "Method not allowed: " ++ method⟩
  else
    match remote model method args kwargs with
    | RemoteOutcome.ok v => Except.ok v
    | RemoteOutcome.fault m => Except.error ⟨400, "Odoo Fault: " ++ m⟩
    | RemoteOutcome.exn m => Except.error ⟨500, "Server error: " ++ m⟩

/-- The sequence of `models.execute_kw` invocations `_odoo_call` performs,
read off the same code: none when the method check raises the 403 before the
`try` block, and exactly one (never retried) otherwise. -/
def odoo_call_invocations {V A K : Type}
    (_remote : String → String → A → K → RemoteOutcome V)
    (model method : String) (_args : A) (_kwargs : K) : List (String × String) :=
  if method ∉ ALLOWED_METHODS then [] else [(model, method)]

/-- The three runtime shapes a `Union[str, X, None]` request parameter can
take in `_parse_domain` / `_parse_fields`. -/
inductive StrListArg (X : Type) where
  | null
  | str (s : String)
  | lst (l : X)

/-- Python `s.strip()` on a `String`. -/
def pyStrip (s : String) : String := String.mk (stripL s.data)

/-- Python `s.startswith(c)` for a one-character pattern `c`. -/
def pyStartsWith1 (s : String) (c : Char) : Bool := s.data.head? == some c

/-- `_parse_domain(domain)` from `app.py` (lines 59-78).  `json.loads` is
passed in as an oracle producing the parsed list or a decode error; the
embedding types the parsed payload as a list, the only case the handlers use. -/
def parse_domain {V : Type} (jloads : String → Except String (List V))
    (domain : StrListArg (List V)) : Except HTTPError (List V) :=
  match domain with
  | StrListArg.null => Except.ok []
  | StrListArg.lst l => Except.ok l
  | StrListArg.str s =>
    let d := pyStrip s
    if d = "" then Except.ok []
    else
      match jloads d with
      | Except.ok v => Except.ok v
      | Except.error _ =>
        Except.error ⟨400, "domain must be JSON (stringified) or a JSON list."⟩

/-- `_parse_fields(fields)` from `app.py` (lines 80-102): a string starting
with `[` is first tried as JSON; on a decode error the exception is passed
over and the string falls through to comma-splitting. -/
def parse_fields (jloads : String → Except String (List String))
    (fields : StrListArg (List String)) : Except HTTPError (List String) :=
  match fields with
  | StrListArg.null => Except.ok []
  | StrListArg.lst l => Except.ok l
  | StrListArg.str s =>
    let f := pyStrip s
    if f = "" then Except.ok []
    else
      let viaJson : Option (List String) :=
        if pyStartsWith1 f '[' then
          match jloads f with
          | Except.ok v => some v
          | Except.error _ => none
        else none
      match viaJson with
      | some v => Except.ok v
      | none => Except.ok (((pySplit f ',').map pyStrip).filter (fun x => x ≠ ""))

/-- A candidate as the Confidence Resolver sees it: identifier, display name
and a similarity score (scores are modelled as rationals). -/
structure ScoredCandidate where
  id : Int
  name : String
  score : ℚ
deriving DecidableEq, Repr

/-- Result of the Confidence Resolver: auto-select the top candidate, or ask
the caller to disambiguate among at most five. -/
inductive ResolutionResult where
  | Confident (c : ScoredCandidate)
  | Ambiguous (cs : List ScoredCandidate)
deriving DecidableEq, Repr

/-- The runner-up score: `scores[1]` if present, else `0.0`. -/
def secondScore (rest : List ScoredCandidate) : ℚ :=
  match rest with
  | [] => 0
  | s :: _ => s.score

/-- Modelled from the spec: the Confidence Resolver `classify` (spec section
4.4) belongs to a source variant that is not part of `src/` (only `app.py`
is present), so it is defined here following the spec's words: empty input
gives `Ambiguous([])`; otherwise `Confident(candidates[0])` iff the best
score is at least 0.72 and either there is a single candidate or the best
score beats the runner-up by at least 0.10; otherwise `Ambiguous` with the
top five candidates. -/
def classify (cs : List ScoredCandidate) : ResolutionResult :=
  match cs with
  | [] => ResolutionResult.Ambiguous []
  | best :: rest =>
    if 72/100 ≤ best.score ∧ (rest = [] ∨ 10/100 ≤ best.score - secondScore rest) then
      ResolutionResult.Confident best
    else
      ResolutionResult.Ambiguous (cs.take 5)

/-- Does `pat` occur as a contiguous substring of `hay`?  Python's
`pat in hay` on strings, on character lists. -/
def isSubSeqOf (pat : List Char) : List Char → Bool
  | [] => pat == []
  | c :: rest => pat.isPrefixOf (c :: rest) || isSubSeqOf pat rest

/-- Python `t in name` for strings. -/
def strIn (pat hay : String) : Bool := isSubSeqOf pat.data hay.data

/-- A product record as returned by `search_read` with fields `id`, `name`. -/
structure Product where
  id : Int
  name : String
deriving DecidableEq, Repr

/-- The ranking heuristic inside `find_product_templates` (lines 220-224):
the number of non-empty tokens of the normalized query occurring as
substrings of the candidate's normalized name. -/
def rank (qn : String) (x : Product) : Nat :=
  let name := normalize x.name
  (((pySplit qn ' ').filter (fun t => t ≠ "")).filter (fun t => strIn t name)).length

/-- Keyword arguments passed by `find_product_templates` to `search_read`. -/
structure FindKwargs where
  fields : List String
  limit : Int
deriving DecidableEq, Repr

/-- `find_product_templates(req)` from `app.py` (lines 205-227): build the
tokenized OR domain over `name`, fetch `id`/`name` of matching
`product.template` records through `_odoo_call`, then stably sort the
results by descending rank (Python's `list.sort(key=rank, reverse=True)` is
a stable sort, embedded as `mergeSort` with the non-strict descending
comparison). -/
def find_product_templates
    (remote : String → String → List (List DomTerm) → FindKwargs → RemoteOutcome (List Product))
    (q : String) (lim : Int) : Except HTTPError (String × List Product) :=
  let domain := token_or_domain "name" q
  match odoo_call remote "product.template" "search_read" [domain] ⟨["id", "name"], lim⟩ with
  | Except.error e => Except.error e
  | Except.ok results =>
    let qn := normalize q
    Except.ok (q, results.mergeSort (fun a b => decide (rank qn b ≤ rank qn a)))

/-- Characters that pass through every stage of `_normalize` unchanged:
not combining, not whitespace, lowercase-stable and NFKD-stable. -/
def goodChar (d : Char) : Bool :=
  !combiningChar d && !pyIsSpace d && lowerChar d == d && nfkdChar d == [d]

/-- Characters fixed by lowercasing and decomposition (whitespace allowed). -/
def okChar (d : Char) : Bool :=
  lowerChar d == d && nfkdChar d == [d] && !combiningChar d

/-- What one character contributes to the normalized string: its lowercased
NFKD decomposition with the combining marks dropped. -/
def contrib (c : Char) : List Char :=
  (nfkdChar (lowerChar c)).filter (fun d => !combiningChar d)

/-- Normalization-tame characters: whitespace that is stable under
lowercasing and decomposition, or a character whose lowercased decomposition
consists of combining marks plus at least one stable non-whitespace
character.  All ASCII characters and precomposed Latin letters are tame;
compatibility characters such as `'ᴷ'` (decomposing to the capital `K`)
are not. -/
def tameChar (c : Char) : Bool :=
  if pyIsSpace c then
    lowerChar c == c && nfkdChar c == [c] && !combiningChar c
  else
    (nfkdChar (lowerChar c)).all (fun d => combiningChar d || goodChar d) &&
    (nfkdChar (lowerChar c)).any (fun d => !combiningChar d)

/-- A character list that neither starts nor ends with whitespace. -/
def NoEdgeSpace (l : List Char) : Prop :=
  (∀ c, l.head? = some c → pyIsSpace c = false) ∧
  (∀ c, l.getLast? = some c → pyIsSpace c = false)

/-! ### Theorems -/

/-- Helper: when no token of length at least 2 survives, `_token_or_domain`
returns the single fallback leaf built from the whole normalized query. -/
theorem token_or_domain_fallback (field q : String)
    (h : (pySplit (normalize q) ' ').filter (fun t => 2 ≤ t.length) = []) :
    token_or_domain field q = [DomTerm.cond field "ilike" (normalize q)] := by
  simp [token_or_domain, h]

/-- C1: for every model name and every operation name outside the allow-list
(in particular `write` and `unlink`), `_odoo_call` fails with HTTP 403
before any call reaches the remote service: the result is the Forbidden
error whatever the remote would answer, and the list of remote invocations
performed is empty. -/
theorem claim1_disallowed_method_forbidden {V A K : Type}
    (remote : String → String → A → K → RemoteOutcome V)
    (model method : String) (args : A) (kwargs : K)
    (h : method ∉ ALLOWED_METHODS) :
    odoo_call remote model method args kwargs
        = Except.error ⟨403, "Method not allowed: " ++ method⟩ ∧
    odoo_call_invocations remote model method args kwargs = [] := by
  refine ⟨?_, ?_⟩ <;> simp [odoo_call, odoo_call_invocations, h]

/-- Witness for C1 at method `write` and at method `unlink`. -/
theorem claim1_disallowed_method_forbidden_witness :
    odoo_call (fun _ _ _ _ => RemoteOutcome.ok 0) "res.partner" "write"
        ([] : List Nat) () = Except.error ⟨403, "Method not allowed: write"⟩ ∧
    odoo_call (fun _ _ _ _ => RemoteOutcome.ok 0) "res.partner" "unlink"
        ([] : List Nat) () = Except.error ⟨403, "Method not allowed: unlink"⟩ := by
  refine ⟨?_, ?_⟩
  · exact (claim1_disallowed_method_forbidden (fun _ _ _ _ => RemoteOutcome.ok 0)
      "res.partner" "write" [] () (by decide)).1
  · exact (claim1_disallowed_method_forbidden (fun _ _ _ _ => RemoteOutcome.ok 0)
      "res.partner" "unlink" [] () (by decide)).1

/-- C2: for every field and query, `_token_or_domain` returns exactly N-1
`"|"` markers followed by the N `ilike` leaves, one per effective token, all
against the same field, where N is the number of effective tokens and is at
least 1. -/
theorem claim2_or_chain_shape (field q : String) :
    effTokens q ≠ [] ∧
    token_or_domain field q
      = List.replicate ((effTokens q).length - 1) (DomTerm.op "|")
        ++ (effTokens q).map (fun t => DomTerm.cond field "ilike" t) := by
  rcases hts : (pySplit (normalize q) ' ').filter (fun t => 2 ≤ t.length) with
      _ | ⟨a, _ | ⟨b, tl⟩⟩ <;>
    simp [token_or_domain, effTokens, hts]

/-- C3: when no whitespace-separated token of the normalized query has
length at least 2, the Domain Builder falls back to the entire normalized
query and returns exactly one leaf condition. -/
theorem claim3_degenerate_fallback (field q : String)
    (h : (pySplit (normalize q) ' ').filter (fun t => 2 ≤ t.length) = []) :
    token_or_domain field q = [DomTerm.cond field "ilike" (normalize q)] :=
  token_or_domain_fallback field q h

/-- Witness for C3: `buildOrDomain("name", "a")` yields the single-leaf
domain `[["name", "ilike", "a"]]`. -/
theorem claim3_degenerate_fallback_witness :
    token_or_domain "name" "a" = [DomTerm.cond "name" "ilike" "a"] := by
  have h := claim3_degenerate_fallback "name" "a" (by decide)
  rw [h]; decide

/-- C10: a query that normalizes to the empty string still produces exactly
one leaf, with the empty string as search value. -/
theorem claim10_empty_query_single_leaf (field q : String)
    (h : normalize q = "") :
    token_or_domain field q = [DomTerm.cond field "ilike" ""] := by
  have h0 : (pySplit (normalize q) ' ').filter (fun t => 2 ≤ t.length) = [] := by
    rw [h]; decide
  rw [token_or_domain_fallback field q h0, h]

/-- Witness for C10 at the whitespace-only query `"  "`. -/
theorem claim10_empty_query_single_leaf_witness :
    token_or_domain "name" "  " = [DomTerm.cond "name" "ilike" ""] :=
  claim10_empty_query_single_leaf "name" "  " (by decide)

/-- C6: the Query Normalizer lowercases, strips diacritics and collapses
whitespace — `normalize("café noisette") = normalize("cafe noisette")
= "cafe noisette"` — and treats a null or empty input as the empty string
(the function is total by construction). -/
theorem claim6_normalize_examples :
    normalizeOpt (some "café noisette") = "cafe noisette" ∧
    normalizeOpt (some "cafe noisette") = "cafe noisette" ∧
    normalizeOpt (some "  CAFÉ   Noisette ") = "cafe noisette" ∧
    normalizeOpt none = "" ∧
    normalizeOpt (some "") = "" := by
  refine ⟨by decide, by decide, by decide, rfl, rfl⟩

/-- C9: for an allowed operation, a remote fault surfaces as the 400 client
error carrying the remote's fault message, any other exception surfaces as
the 500 server error, and exactly one remote invocation is performed (no
retry, nothing swallowed). -/
theorem claim9_remote_failure_surfaced {V A K : Type}
    (remote : String → String → A → K → RemoteOutcome V)
    (model method : String) (args : A) (kwargs : K)
    (hm : method ∈ ALLOWED_METHODS) :
    (∀ m, remote model method args kwargs = RemoteOutcome.fault m →
        odoo_call remote model method args kwargs
          = Except.error ⟨400, "Odoo Fault: " ++ m⟩) ∧
    (∀ m, remote model method args kwargs = RemoteOutcome.exn m →
        odoo_call remote model method args kwargs
          = Except.error ⟨500, "Server error: " ++ m⟩) ∧
    odoo_call_invocations remote model method args kwargs = [(model, method)] := by
  have hmm : ¬ method ∉ ALLOWED_METHODS := not_not_intro hm
  refine ⟨?_, ?_, ?_⟩
  · intro m hr; simp [odoo_call, hmm, hr]
  · intro m hr; simp [odoo_call, hmm, hr]
  · simp [odoo_call_invocations, hmm]

/-- Witness for C9: a faulting remote and a crashing remote on `read`. -/
theorem claim9_remote_failure_surfaced_witness :
    odoo_call (fun _ _ _ _ => (RemoteOutcome.fault "unknown field" : RemoteOutcome Nat))
        "product.template" "read" ([] : List Nat) ()
      = Except.error ⟨400, "Odoo Fault: unknown field"⟩ ∧
    odoo_call (fun _ _ _ _ => (RemoteOutcome.exn "conn refused" : RemoteOutcome Nat))
        "product.template" "read" ([] : List Nat) ()
      = Except.error ⟨500, "Server error: conn refused"⟩ := by
  refine ⟨?_, ?_⟩
  · exact ((claim9_remote_failure_surfaced
      (fun _ _ _ _ => RemoteOutcome.fault "unknown field")
      "product.template" "read" [] () (by decide)).1 "unknown field" rfl)
  · exact ((claim9_remote_failure_surfaced
      (fun _ _ _ _ => RemoteOutcome.exn "conn refused")
      "product.template" "read" [] () (by decide)).2.1 "conn refused" rfl)

/-- C8 counterexample: the claim is false as stated.  A fields string
starting with `[` that is malformed JSON (here `"[a,b]"`, on which
`json.loads` raises) is silently comma-split instead of causing an
InvalidArgument error, and a whitespace-only domain string — non-empty yet
malformed JSON — is silently turned into the empty domain. -/
theorem claim8_counterexample :
    parse_fields (fun _ => Except.error "Expecting value") (StrListArg.str "[a,b]")
      = Except.ok ["[a", "b]"] ∧
    parse_domain (fun _ => (Except.error "Expecting value" : Except String (List Unit)))
        (StrListArg.str " ")
      = Except.ok [] ∧
    (" " : String) ≠ "" := by
  refine ⟨rfl, rfl, by decide⟩

/-- C8 (amended): a domain string that is non-empty after stripping and
fails to parse as JSON yields the 400 InvalidArgument error; a fields string
starting with `[` that fails to parse as JSON is silently reinterpreted by
the comma-separated fallback; a list input passes through unchanged; an
absent input yields the empty list. -/
theorem claim8_parse_arguments {V : Type}
    (jld : String → Except String (List V))
    (jlf : String → Except String (List String))
    (s t : String) (l : List V) (fl : List String) :
    (pyStrip s ≠ "" → (∃ e, jld (pyStrip s) = Except.error e) →
        parse_domain jld (StrListArg.str s)
          = Except.error ⟨400, "domain must be JSON (stringified) or a JSON list."⟩) ∧
    (pyStrip t ≠ "" → pyStartsWith1 (pyStrip t) '[' = true →
        (∃ e, jlf (pyStrip t) = Except.error e) →
        parse_fields jlf (StrListArg.str t)
          = Except.ok ((((pySplit (pyStrip t) ',').map pyStrip)).filter (fun x => x ≠ ""))) ∧
    parse_domain jld (StrListArg.lst l) = Except.ok l ∧
    parse_fields jlf (StrListArg.lst fl) = Except.ok fl ∧
    parse_domain jld StrListArg.null = Except.ok [] ∧
    parse_fields jlf StrListArg.null = Except.ok [] := by
  refine ⟨?_, ?_, rfl, rfl, rfl, rfl⟩
  · intro hs ⟨e, he⟩
    simp [parse_domain, hs, he]
  · intro ht hb ⟨e, he⟩
    simp [parse_fields, ht, hb, he]

/-- Witness for the amended C8 at concrete inputs. -/
theorem claim8_parse_arguments_witness :
    parse_domain (fun _ => (Except.error "Expecting value" : Except String (List Int)))
        (StrListArg.str "not json")
      = Except.error ⟨400, "domain must be JSON (stringified) or a JSON list."⟩ ∧
    parse_fields (fun _ => Except.error "Expecting value") (StrListArg.str " [a, b ")
      = Except.ok ["[a", "b"] ∧
    parse_domain (fun _ => (Except.error "Expecting value" : Except String (List Int)))
        (StrListArg.lst [(3 : Int)]) = Except.ok [(3 : Int)] ∧
    parse_fields (fun _ => Except.error "Expecting value") StrListArg.null
      = Except.ok [] := by
  have h := claim8_parse_arguments
    (fun _ => (Except.error "Expecting value" : Except String (List Int)))
    (fun _ => Except.error "Expecting value")
    "not json" " [a, b " [(3 : Int)] ["id"]
  refine ⟨h.1 (by decide) ⟨"Expecting value", rfl⟩, ?_, h.2.2.1, h.2.2.2.2.2⟩
  have h2 := h.2.1 (by decide) (by decide) ⟨"Expecting value", rfl⟩
  rw [h2]; rfl

/-- C4: the Confidence Resolver returns `Ambiguous([])` on the empty list;
on a descending-sorted nonempty list it returns `Confident(candidates[0])`
iff the best score is at least 0.72 and either only one candidate exists or
the margin over the runner-up is at least 0.10; otherwise it returns
`Ambiguous` with at most the top five candidates. -/
theorem claim4_classify_spec (cs : List ScoredCandidate)
    (_hsorted : cs.Pairwise (fun a b => b.score ≤ a.score)) :
    (cs = [] → classify cs = ResolutionResult.Ambiguous []) ∧
    (∀ best rest, cs = best :: rest →
      ((classify cs = ResolutionResult.Confident best ↔
          72/100 ≤ best.score ∧ (rest = [] ∨ 10/100 ≤ best.score - secondScore rest)) ∧
       (¬(72/100 ≤ best.score ∧ (rest = [] ∨ 10/100 ≤ best.score - secondScore rest)) →
          classify cs = ResolutionResult.Ambiguous (cs.take 5) ∧
          (cs.take 5).length ≤ 5))) := by
  constructor
  · intro h; subst h; rfl
  · intro best rest h; subst h
    by_cases hc : 72/100 ≤ best.score ∧ (rest = [] ∨ 10/100 ≤ best.score - secondScore rest)
    · refine ⟨?_, fun h' => absurd hc h'⟩
      simp [classify, hc]
    · refine ⟨?_, fun _ => ⟨by simp [classify, hc], ?_⟩⟩
      · simp [classify, hc]
      · simp [List.length_take]

/-- Witness for C4: the four spec examples — scores `[0.9, 0.5]` give
`Confident`, `[0.75, 0.70]` give `Ambiguous`, a single `0.72` gives
`Confident`, a single `0.71` gives `Ambiguous`. -/
theorem claim4_classify_spec_witness :
    classify [⟨1, "a", 9/10⟩, ⟨2, "b", 5/10⟩]
      = ResolutionResult.Confident ⟨1, "a", 9/10⟩ ∧
    classify [⟨3, "c", 75/100⟩, ⟨4, "d", 70/100⟩]
      = ResolutionResult.Ambiguous [⟨3, "c", 75/100⟩, ⟨4, "d", 70/100⟩] ∧
    classify [⟨5, "e", 72/100⟩] = ResolutionResult.Confident ⟨5, "e", 72/100⟩ ∧
    classify [⟨6, "f", 71/100⟩]
      = ResolutionResult.Ambiguous [⟨6, "f", 71/100⟩] := by
  refine ⟨?_, ?_, ?_, ?_⟩
  · exact (((claim4_classify_spec [⟨1, "a", 9/10⟩, ⟨2, "b", 5/10⟩]
        (by norm_num [List.pairwise_cons])).2 ⟨1, "a", 9/10⟩ [⟨2, "b", 5/10⟩] rfl).1).mpr
      (by norm_num [secondScore])
  · have h := (((claim4_classify_spec [⟨3, "c", 75/100⟩, ⟨4, "d", 70/100⟩]
        (by norm_num [List.pairwise_cons])).2 ⟨3, "c", 75/100⟩ [⟨4, "d", 70/100⟩] rfl).2)
      (by norm_num [secondScore])
    simpa using h.1
  · exact (((claim4_classify_spec [⟨5, "e", 72/100⟩]
        (by simp)).2 ⟨5, "e", 72/100⟩ [] rfl).1).mpr (by norm_num)
  · have h := (((claim4_classify_spec [⟨6, "f", 71/100⟩]
        (by simp)).2 ⟨6, "f", 71/100⟩ [] rfl).2) (by norm_num)
    simpa using h.1

/-- Helper: the descending-rank comparison is transitive. -/
theorem rankLe_trans (qn : String) : ∀ a b c : Product,
    decide (rank qn b ≤ rank qn a) = true →
    decide (rank qn c ≤ rank qn b) = true →
    decide (rank qn c ≤ rank qn a) = true := by
  intro a b c hab hbc
  exact decide_eq_true (le_trans (of_decide_eq_true hbc) (of_decide_eq_true hab))

/-- Helper: the descending-rank comparison is total. -/
theorem rankLe_total (qn : String) : ∀ a b : Product,
    (decide (rank qn b ≤ rank qn a) || decide (rank qn a ≤ rank qn b)) = true := by
  intro a b
  rcases Nat.le_total (rank qn b) (rank qn a) with h | h <;> simp [h]

/-- C7: on a successful fetch, `find_product_templates` returns the fetched
candidates reordered by descending token-overlap rank: the output is a
permutation of the remote's result list, is pairwise descending in rank, and
candidates of equal rank keep the remote's original order (the sort is
stable: filtering the output at any fixed rank gives exactly the filtered
input, in order). -/
theorem claim7_find_ranked
    (remote : String → String → List (List DomTerm) → FindKwargs → RemoteOutcome (List Product))
    (q : String) (lim : Int) (results : List Product)
    (hremote : remote "product.template" "search_read" [token_or_domain "name" q]
        ⟨["id", "name"], lim⟩ = RemoteOutcome.ok results) :
    find_product_templates remote q lim
      = Except.ok (q, results.mergeSort
          (fun a b => decide (rank (normalize q) b ≤ rank (normalize q) a))) ∧
    (results.mergeSort
        (fun a b => decide (rank (normalize q) b ≤ rank (normalize q) a))).Perm results ∧
    (results.mergeSort
        (fun a b => decide (rank (normalize q) b ≤ rank (normalize q) a))).Pairwise
      (fun a b => rank (normalize q) b ≤ rank (normalize q) a) ∧
    ∀ r : Nat,
      (results.mergeSort
          (fun a b => decide (rank (normalize q) b ≤ rank (normalize q) a))).filter
        (fun x => rank (normalize q) x == r)
      = results.filter (fun x => rank (normalize q) x == r) := by
  refine ⟨?_, List.mergeSort_perm results _, ?_, ?_⟩
  · simp only [find_product_templates, odoo_call]
    rw [if_neg (by decide), hremote]
  · exact (List.sorted_mergeSort (rankLe_trans (normalize q)) (rankLe_total (normalize q))
      results).imp (fun h => of_decide_eq_true h)
  · intro r
    have hsub0 : (results.filter (fun x => rank (normalize q) x == r)).Sublist results :=
      List.filter_sublist results
    have hpw : (results.filter (fun x => rank (normalize q) x == r)).Pairwise
        (fun a b => decide (rank (normalize q) b ≤ rank (normalize q) a) = true) := by
      apply List.pairwise_of_forall_mem_list
      intro a ha b hb
      have ha' : rank (normalize q) a = r := by
        simpa using (List.mem_filter.mp ha).2
      have hb' : rank (normalize q) b = r := by
        simpa using (List.mem_filter.mp hb).2
      simp [ha', hb']
    have hsub : (results.filter (fun x => rank (normalize q) x == r)).Sublist
        (results.mergeSort (fun a b => decide (rank (normalize q) b ≤ rank (normalize q) a))) :=
      List.sublist_mergeSort (rankLe_trans (normalize q)) (rankLe_total (normalize q)) hpw hsub0
    have hself : ((results.filter (fun x => rank (normalize q) x == r)).filter
        (fun x => rank (normalize q) x == r))
        = results.filter (fun x => rank (normalize q) x == r) :=
      List.filter_eq_self.mpr (fun a ha => (List.mem_filter.mp ha).2)
    have hsub2 := hsub.filter (fun x => rank (normalize q) x == r)
    rw [hself] at hsub2
    have hperm : ((results.mergeSort
        (fun a b => decide (rank (normalize q) b ≤ rank (normalize q) a))).filter
          (fun x => rank (normalize q) x == r)).Perm
        (results.filter (fun x => rank (normalize q) x == r)) :=
      (List.mergeSort_perm results _).filter _
    exact (hsub2.eq_of_length hperm.symm.length_eq).symm

/-- Witness for C7: a remote returning a single candidate. -/
theorem claim7_find_ranked_witness :
    find_product_templates (fun _ _ _ _ => RemoteOutcome.ok [⟨1, "x"⟩]) "ab" 10
      = Except.ok ("ab", [⟨1, "x"⟩]) := by
  have h := claim7_find_ranked (fun _ _ _ _ => RemoteOutcome.ok [⟨1, "x"⟩]) "ab" 10
    [⟨1, "x"⟩] rfl
  rw [h.1, List.mergeSort_singleton]

/-- C5 counterexample: `_normalize` is not idempotent on all strings.  For
`'ᴷ'` (U+1D37), lowercasing is the identity but the NFKD decomposition is
the capital `K`, so `normalize "ᴷ" = "K"` while a second pass lowercases it
to `"k"`. -/
theorem claim5_counterexample :
    normalize (normalize "ᴷ") ≠ normalize "ᴷ" := by decide

/-- Helper: good characters are fixed by lowercasing and decomposition. -/
theorem okChar_of_goodChar {d : Char} (h : goodChar d = true) : okChar d = true := by
  simp only [goodChar, Bool.and_eq_true] at h
  simp only [okChar, Bool.and_eq_true]
  exact ⟨⟨h.1.2, h.2⟩, h.1.1.1⟩

/-- Helper: good characters are not whitespace. -/
theorem goodChar_nonspace {d : Char} (h : goodChar d = true) : pyIsSpace d = false := by
  simp only [goodChar, Bool.and_eq_true] at h
  simpa using h.1.1.2

/-- Helper: a tame whitespace character contributes itself. -/
theorem contrib_of_space {c : Char} (h : tameChar c = true) (hs : pyIsSpace c = true) :
    contrib c = [c] ∧ okChar c = true := by
  rw [tameChar, if_pos hs] at h
  refine ⟨?_, h⟩
  simp only [okChar, Bool.and_eq_true, beq_iff_eq] at h
  simp [contrib, h.1.1, h.1.2, h.2]

/-- Helper: a tame non-whitespace character contributes a nonempty list of
good characters. -/
theorem contrib_of_nonspace {c : Char} (h : tameChar c = true) (hs : pyIsSpace c = false) :
    contrib c ≠ [] ∧ ∀ d ∈ contrib c, goodChar d = true := by
  rw [tameChar, if_neg (by simp [hs])] at h
  simp only [Bool.and_eq_true, List.all_eq_true, List.any_eq_true] at h
  obtain ⟨hall, e, he, hne⟩ := h
  constructor
  · intro hcon
    have : e ∈ contrib c := List.mem_filter.mpr ⟨he, hne⟩
    simp [hcon] at this
  · intro d hd
    have hd' := List.mem_filter.mp hd
    have := hall d hd'.1
    rcases Bool.or_eq_true _ _ |>.mp this with hcomb | hgood
    · exfalso
      have := hd'.2
      simp [hcomb] at this
    · exact hgood

/-- Helper: `normalizeL` written as one pass of per-character contributions
followed by whitespace collapsing. -/
theorem normalizeL_eq (l : List Char) :
    normalizeL l = collapseWs ((stripL l).flatMap contrib) := by
  rw [normalizeL, List.flatMap_map, List.filter_flatMap]
  rfl

/-- Helper: the head of a `dropWhile pyIsSpace` is not whitespace. -/
theorem dropWhile_head_nonspace :
    ∀ (l : List Char) (c : Char), (l.dropWhile pyIsSpace).head? = some c →
      pyIsSpace c = false := by
  intro l
  induction l with
  | nil => intro c hc; simp at hc
  | cons a rest ih =>
    intro c hc
    by_cases ha : pyIsSpace a = true
    · rw [List.dropWhile_cons_of_pos ha] at hc
      exact ih c hc
    · rw [List.dropWhile_cons_of_neg ha] at hc
      simp only [List.head?_cons, Option.some.injEq] at hc
      subst hc
      simpa using ha

/-- Helper: the last element of a `dropWhile` is the last of the input. -/
theorem dropWhile_getLast (l : List Char) (c : Char)
    (h : (l.dropWhile pyIsSpace).getLast? = some c) : l.getLast? = some c := by
  obtain ⟨t, ht⟩ := @List.dropWhile_suffix Char l pyIsSpace
  rw [← ht, List.getLast?_append, h]
  rfl

/-- Helper: a stripped list neither starts nor ends with whitespace. -/
theorem stripL_noEdgeSpace (l : List Char) : NoEdgeSpace (stripL l) := by
  constructor
  · intro c hc
    rw [stripL, List.head?_reverse] at hc
    have := dropWhile_getLast _ c hc
    rw [List.getLast?_reverse] at this
    exact dropWhile_head_nonspace l c this
  · intro c hc
    rw [stripL, List.getLast?_reverse] at hc
    exact dropWhile_head_nonspace _ c hc

/-- Helper: every character of a stripped list came from the input. -/
theorem mem_stripL {c : Char} {l : List Char} (h : c ∈ stripL l) : c ∈ l := by
  rw [stripL, List.mem_reverse] at h
  have h1 := (List.dropWhile_sublist pyIsSpace).subset h
  rw [List.mem_reverse] at h1
  exact (List.dropWhile_sublist pyIsSpace).subset h1

/-- Helper: every character a tame list contributes is stable under
lowercasing and decomposition. -/
theorem mem_flatMap_contrib_ok {l : List Char} (hl : ∀ c ∈ l, tameChar c = true) :
    ∀ d ∈ l.flatMap contrib, okChar d = true := by
  intro d hd
  obtain ⟨c, hc, hdc⟩ := List.mem_flatMap.mp hd
  by_cases hs : pyIsSpace c = true
  · obtain ⟨hcon, hok⟩ := contrib_of_space (hl c hc) hs
    rw [hcon] at hdc
    simp only [List.mem_singleton] at hdc
    exact hdc ▸ hok
  · have hs' : pyIsSpace c = false := by simpa using hs
    exact okChar_of_goodChar ((contrib_of_nonspace (hl c hc) hs').2 d hdc)

/-- Helper: if the head of a list is not whitespace and each non-whitespace
element is sent to a nonempty list of good characters, the image under
`flatMap` starts with a good character. -/
theorem head_flatMap_good (g : Char → List Char) (l : List Char)
    (hg : ∀ c ∈ l, pyIsSpace c = false → g c ≠ [] ∧ ∀ d ∈ g c, goodChar d = true)
    (hh : ∀ c, l.head? = some c → pyIsSpace c = false) :
    ∀ d, (l.flatMap g).head? = some d → goodChar d = true := by
  intro d hd
  cases l with
  | nil => simp at hd
  | cons c0 rest =>
    have hc0 : pyIsSpace c0 = false := hh c0 rfl
    obtain ⟨hne, hgood⟩ := hg c0 (List.mem_cons_self c0 rest) hc0
    rw [List.flatMap_cons, List.head?_append] at hd
    cases hg0 : g c0 with
    | nil => exact absurd hg0 hne
    | cons d0 tl =>
      rw [hg0] at hd
      simp only [List.head?_cons, Option.or_some, Option.some.injEq] at hd
      have hmem : d0 ∈ g c0 := by rw [hg0]; exact List.mem_cons_self d0 tl
      exact hd ▸ hgood d0 hmem

/-- Helper: contributions of a stripped tame list neither start nor end with
whitespace. -/
theorem flatMap_contrib_noEdgeSpace {l : List Char}
    (hl : ∀ c ∈ l, tameChar c = true) (hedge : NoEdgeSpace l) :
    NoEdgeSpace (l.flatMap contrib) := by
  constructor
  · intro d hd
    refine goodChar_nonspace (head_flatMap_good contrib l ?_ hedge.1 d hd)
    intro c hc hcs
    exact contrib_of_nonspace (hl c hc) hcs
  · intro d hd
    rw [← List.head?_reverse, List.reverse_flatMap] at hd
    refine goodChar_nonspace (head_flatMap_good _ l.reverse ?_ ?_ d hd)
    · intro c hc hcs
      rw [List.mem_reverse] at hc
      obtain ⟨hne, hgood⟩ := contrib_of_nonspace (hl c hc) hcs
      constructor
      · simpa using hne
      · intro e he
        exact hgood e (by simpa using he)
    · intro c hc
      rw [List.head?_reverse] at hc
      exact hedge.2 c hc

/-- Helper: characters of the collapsed list come from the input or are the
single space. -/
theorem collapseAux_mem :
    ∀ (l : List Char) (b : Bool) (c : Char), c ∈ collapseAux l b → c ∈ l ∨ c = ' ' := by
  intro l
  induction l with
  | nil => intro b c hc; simp [collapseAux] at hc
  | cons a rest ih =>
    intro b c hc
    rw [collapseAux] at hc
    by_cases ha : pyIsSpace a = true
    · rw [if_pos ha] at hc
      by_cases hb : b
      · subst hb
        rw [if_pos rfl] at hc
        rcases ih true c hc with h | h
        · exact Or.inl (List.mem_cons_of_mem a h)
        · exact Or.inr h
      · have hb' : b = false := by simpa using hb
        subst hb'
        rw [if_neg (by simp)] at hc
        rcases List.mem_cons.mp hc with h | h
        · exact Or.inr h
        · rcases ih true c h with h' | h'
          · exact Or.inl (List.mem_cons_of_mem a h')
          · exact Or.inr h'
    · rw [if_neg ha] at hc
      rcases List.mem_cons.mp hc with h | h
      · exact Or.inl (h ▸ List.mem_cons_self a rest)
      · rcases ih false c h with h' | h'
        · exact Or.inl (List.mem_cons_of_mem a h')
        · exact Or.inr h'

/-- Helper: whitespace in the collapsed list is always the single space. -/
theorem collapseAux_space_char :
    ∀ (l : List Char) (b : Bool) (c : Char), c ∈ collapseAux l b →
      pyIsSpace c = true → c = ' ' := by
  intro l
  induction l with
  | nil => intro b c hc; simp [collapseAux] at hc
  | cons a rest ih =>
    intro b c hc hcs
    rw [collapseAux] at hc
    by_cases ha : pyIsSpace a = true
    · rw [if_pos ha] at hc
      by_cases hb : b
      · subst hb; rw [if_pos rfl] at hc
        exact ih true c hc hcs
      · have hb' : b = false := by simpa using hb
        subst hb'
        rw [if_neg (by simp)] at hc
        rcases List.mem_cons.mp hc with h | h
        · exact h
        · exact ih true c h hcs
    · rw [if_neg ha] at hc
      rcases List.mem_cons.mp hc with h | h
      · subst h; exact absurd hcs (by simpa using ha)
      · exact ih false c h hcs

/-- Helper: with the flag set, the collapsed list cannot start with
whitespace (the pending run is still being skipped). -/
theorem collapseAux_true_head :
    ∀ (l : List Char) (c : Char), (collapseAux l true).head? = some c →
      pyIsSpace c = false := by
  intro l
  induction l with
  | nil => intro c hc; simp [collapseAux] at hc
  | cons a rest ih =>
    intro c hc
    rw [collapseAux] at hc
    by_cases ha : pyIsSpace a = true
    · rw [if_pos ha, if_pos rfl] at hc
      exact ih c hc
    · rw [if_neg ha] at hc
      simp only [List.head?_cons, Option.some.injEq] at hc
      subst hc
      simpa using ha

/-- Helper: the collapsed list never has two adjacent whitespace characters. -/
theorem collapseAux_chain :
    ∀ (l : List Char) (b : Bool),
      (collapseAux l b).Chain' (fun x y => ¬(pyIsSpace x = true ∧ pyIsSpace y = true)) := by
  intro l
  induction l with
  | nil => intro b; simp [collapseAux]
  | cons a rest ih =>
    intro b
    rw [collapseAux]
    by_cases ha : pyIsSpace a = true
    · rw [if_pos ha]
      by_cases hb : b
      · subst hb; rw [if_pos rfl]; exact ih true
      · have hb' : b = false := by simpa using hb
        subst hb'
        rw [if_neg (by simp)]
        rw [List.chain'_cons']
        refine ⟨?_, ih true⟩
        intro y hy hcon
        have := collapseAux_true_head rest y hy
        rw [this] at hcon
        exact Bool.false_ne_true hcon.2
    · rw [if_neg ha]
      rw [List.chain'_cons']
      refine ⟨?_, ih false⟩
      intro y hy hcon
      exact ha hcon.1

/-- Helper: prepending keeps the last element of a nonempty list. -/
theorem getLast?_cons_eq {x d : Char} {xs : List Char} (h : xs.getLast? = some d) :
    (x :: xs).getLast? = some d := by
  cases xs with
  | nil => simp at h
  | cons y ys => rw [List.getLast?_cons_cons]; exact h

/-- Helper: collapsing starts at a non-whitespace head by copying it. -/
theorem collapseAux_nonspace_head {c : Char} {rest : List Char}
    (h : pyIsSpace c = false) :
    ∀ b, collapseAux (c :: rest) b = c :: collapseAux rest false := by
  intro b
  rw [collapseAux, if_neg (by simp [h])]

/-- Helper: a non-whitespace last character survives collapsing as the last
character. -/
theorem collapseAux_getLast_nonspace :
    ∀ (l : List Char) (b : Bool) (d : Char), l.getLast? = some d →
      pyIsSpace d = false → (collapseAux l b).getLast? = some d := by
  intro l
  induction l with
  | nil => intro b d hd _; simp at hd
  | cons c rest ih =>
    intro b d hd hds
    cases rest with
    | nil =>
      have hcd : c = d := by simpa using hd
      rw [hcd, collapseAux_nonspace_head hds b]
      simp [collapseAux]
    | cons r rs =>
      rw [List.getLast?_cons_cons] at hd
      rw [collapseAux]
      by_cases hcs : pyIsSpace c = true
      · rw [if_pos hcs]
        by_cases hb : b
        · subst hb; rw [if_pos rfl]
          exact ih true d hd hds
        · have hb' : b = false := by simpa using hb
          subst hb'
          rw [if_neg (by simp)]
          exact getLast?_cons_eq (ih true d hd hds)
      · rw [if_neg hcs]
        exact getLast?_cons_eq (ih false d hd hds)

/-- Helper: a list whose whitespace is already single interior spaces is a
fixed point of collapsing. -/
theorem collapseAux_fix :
    ∀ (l : List Char), (∀ c ∈ l, pyIsSpace c = true → c = ' ') →
      l.Chain' (fun x y => ¬(pyIsSpace x = true ∧ pyIsSpace y = true)) →
      collapseAux l false = l := by
  intro l
  induction l with
  | nil => intro _ _; rfl
  | cons c rest ih =>
    intro hsp hch
    by_cases hcs : pyIsSpace c = true
    · have hc' : c = ' ' := hsp c (List.mem_cons_self c rest) hcs
      rw [collapseAux, if_pos hcs, if_neg (by simp)]
      have htail : collapseAux rest true = rest := by
        cases rest with
        | nil => rfl
        | cons r rs =>
          have hr : pyIsSpace r = false := by
            rw [List.chain'_cons] at hch
            by_contra hrr
            exact hch.1 ⟨hcs, by simpa using hrr⟩
          calc collapseAux (r :: rs) true
              = r :: collapseAux rs false := collapseAux_nonspace_head hr true
            _ = collapseAux (r :: rs) false := (collapseAux_nonspace_head hr false).symm
            _ = r :: rs := ih (fun x hx => hsp x (List.mem_cons_of_mem c hx)) hch.tail
      rw [htail, hc']
    · have hcs' : pyIsSpace c = false := by simpa using hcs
      rw [collapseAux_nonspace_head hcs' false,
        ih (fun x hx => hsp x (List.mem_cons_of_mem c hx)) hch.tail]

/-- Helper: collapsing preserves whitespace-free edges. -/
theorem collapseWs_noEdgeSpace {u : List Char} (hedge : NoEdgeSpace u) :
    NoEdgeSpace (collapseWs u) := by
  constructor
  · intro c hc
    cases u with
    | nil => simp [collapseWs, collapseAux] at hc
    | cons c0 rest =>
      have h0 : pyIsSpace c0 = false := hedge.1 c0 rfl
      rw [collapseWs, collapseAux_nonspace_head h0] at hc
      simp only [List.head?_cons, Option.some.injEq] at hc
      exact hc ▸ h0
  · intro c hc
    cases u with
    | nil => simp [collapseWs, collapseAux] at hc
    | cons c0 rest =>
      have hne : (c0 :: rest).getLast?.isSome = true :=
        List.getLast?_isSome.mpr (by simp)
      obtain ⟨d, hd⟩ := Option.isSome_iff_exists.mp hne
      have hds : pyIsSpace d = false := hedge.2 d hd
      rw [collapseWs, collapseAux_getLast_nonspace (c0 :: rest) false d hd hds] at hc
      simp only [Option.some.injEq] at hc
      exact hc ▸ hds

/-- Helper: a list with whitespace-free edges is a fixed point of strip. -/
theorem stripL_eq_self {l : List Char} (hedge : NoEdgeSpace l) : stripL l = l := by
  cases l with
  | nil => rfl
  | cons c rest =>
    have h0 : pyIsSpace c = false := hedge.1 c rfl
    rw [stripL, List.dropWhile_cons_of_neg (by simp [h0])]
    cases hrev : (c :: rest).reverse with
    | nil => exact absurd hrev (by simp)
    | cons d tl =>
      have hd : (c :: rest).getLast? = some d := by
        rw [← List.head?_reverse, hrev]; rfl
      have hds : pyIsSpace d = false := hedge.2 d hd
      rw [List.dropWhile_cons_of_neg (by simp [hds]), ← hrev,
        List.reverse_reverse]

/-- Helper: `flatMap` over a pointwise-trivial function is the identity. -/
theorem flatMap_eq_self {f : Char → List Char} :
    ∀ (l : List Char), (∀ a ∈ l, f a = [a]) → l.flatMap f = l := by
  intro l
  induction l with
  | nil => intro _; rfl
  | cons a rest ih =>
    intro h
    rw [List.flatMap_cons, h a (List.mem_cons_self a rest),
      ih (fun x hx => h x (List.mem_cons_of_mem a hx))]
    rfl

/-- Helper: a collapsed list of stable characters with whitespace-free edges
is a fixed point of the whole normalization pass. -/
theorem normalizeL_collapse_fix {u : List Char}
    (hok : ∀ d ∈ u, okChar d = true) (hedge : NoEdgeSpace u) :
    normalizeL (collapseWs u) = collapseWs u := by
  have hokt : ∀ d ∈ collapseWs u, okChar d = true := by
    intro d hd
    rcases collapseAux_mem u false d hd with h | h
    · exact hok d h
    · rw [h]; decide
  have hedget : NoEdgeSpace (collapseWs u) := collapseWs_noEdgeSpace hedge
  have h1 : stripL (collapseWs u) = collapseWs u := stripL_eq_self hedget
  have h2 : (collapseWs u).map lowerChar = collapseWs u := by
    have hcong : ∀ a ∈ collapseWs u, lowerChar a = id a := by
      intro a ha
      have := hokt a ha
      simp only [okChar, Bool.and_eq_true, beq_iff_eq] at this
      exact this.1.1
    rw [List.map_congr_left hcong, List.map_id]
  have h3 : (collapseWs u).flatMap nfkdChar = collapseWs u := by
    apply flatMap_eq_self
    intro a ha
    have := hokt a ha
    simp only [okChar, Bool.and_eq_true, beq_iff_eq] at this
    exact this.1.2
  have h4 : (collapseWs u).filter (fun c => !combiningChar c) = collapseWs u := by
    apply List.filter_eq_self.mpr
    intro a ha
    have := hokt a ha
    simp only [okChar, Bool.and_eq_true] at this
    exact this.2
  have h5 : collapseWs (collapseWs u) = collapseWs u :=
    collapseAux_fix (collapseWs u)
      (fun c hc => collapseAux_space_char u false c hc)
      (collapseAux_chain u false)
  rw [normalizeL, h1, h2, h3, h4, h5]

/-- Helper: normalization is idempotent on character lists of tame
characters. -/
theorem normalizeL_idem (l : List Char) (h : ∀ c ∈ l, tameChar c = true) :
    normalizeL (normalizeL l) = normalizeL l := by
  have hstame : ∀ c ∈ stripL l, tameChar c = true := fun c hc => h c (mem_stripL hc)
  have hok : ∀ d ∈ (stripL l).flatMap contrib, okChar d = true :=
    mem_flatMap_contrib_ok hstame
  have hedge : NoEdgeSpace ((stripL l).flatMap contrib) :=
    flatMap_contrib_noEdgeSpace hstame (stripL_noEdgeSpace l)
  rw [normalizeL_eq l]
  exact normalizeL_collapse_fix hok hedge

/-- C5 (amended): `_normalize` is idempotent on every string of
normalization-tame characters — in particular on all ASCII and precomposed
Latin text — though not on arbitrary strings (see the counterexample `'ᴷ'`,
whose NFKD decomposition introduces an uppercase character). -/
theorem claim5_normalize_idempotent_tame (s : String)
    (h : s.data.all tameChar = true) :
    normalize (normalize s) = normalize s := by
  have hl : ∀ c ∈ s.data, tameChar c = true := by
    intro c hc
    exact List.all_eq_true.mp h c hc
  show String.mk (normalizeL (String.mk (normalizeL s.data)).data)
      = String.mk (normalizeL s.data)
  have hdata : (String.mk (normalizeL s.data)).data = normalizeL s.data := rfl
  rw [hdata, normalizeL_idem s.data hl]

/-- Witness for the amended C5 at the spec's flagship query. -/
theorem claim5_normalize_idempotent_tame_witness :
    ("café  Noisette ".data.all tameChar = true) ∧
    normalize (normalize "café  Noisette ") = normalize "café  Noisette " :=
  ⟨by decide, claim5_normalize_idempotent_tame "café  Noisette " (by decide)⟩

end App
